import Mathlib

/-!
Verification of the dependency discovery and allowlist-adjustment pipeline
of the gtsa command line tool (GitLab token scope adjuster).

The TypeScript sources are shallowly embedded: pure functions become Lean
functions, stateful loops become explicit state passing, external
collaborators (the GitLab REST client, the platform JSON and URL parsers)
become explicit environment records of functions, and code that can throw
returns Except.  Network calls performed by a piece of code are recorded in
explicit trace fields of the threaded state so that claims about the number
of issued lookups or writes can be stated.
-/

namespace Gtsa

/-! ## Report generation (src/report/reportGenerator.ts) -/

/-- One project entry of the dry-run report
(interface ProjectReportEntry in reportGenerator.ts). -/
structure ProjectReportEntry where
  projectName : String
  projectId : Nat
  dependencies : List String
deriving Repr, DecidableEq

/-- Hexadecimal digit for a nibble, as produced by JSON.stringify unicode
escapes. -/
def hexDigit (n : Nat) : Char :=
  if n < 10 then Char.ofNat (48 + n) else Char.ofNat (87 + (n % 16))

/-- Four digit lowercase hexadecimal rendering of a code point below 2^16. -/
def hex4 (n : Nat) : String :=
  String.mk [hexDigit ((n / 4096) % 16), hexDigit ((n / 256) % 16),
             hexDigit ((n / 16) % 16), hexDigit (n % 16)]

/-- Escaping of a single character inside a JSON double-quoted string, the
behaviour of the JSON.stringify builtin used by serializeValue. -/
def jsonEscapeChar (c : Char) : String :=
  if c = '"' then "\\\""
  else if c = '\\' then "\\\\"
  else if c = '\n' then "\\n"
  else if c = '\r' then "\\r"
  else if c = '\t' then "\\t"
  else if c.toNat = 8 then "\\b"
  else if c.toNat = 12 then "\\f"
  else if c.toNat < 32 then "\\u" ++ hex4 c.toNat
  else String.singleton c

/-- Embedding of serializeValue: JSON.stringify applied to a string value,
producing a double-quoted scalar. -/
def serializeValue (s : String) : String :=
  "\"" ++ String.join (s.toList.map jsonEscapeChar) ++ "\""

/-- Concatenation of strings onto each other, the semantics of joining
newline-terminated lines. -/
def concatAll : List String → String
  | [] => ""
  | x :: rest => x ++ concatAll rest

/-- JavaScript Array.prototype.join. -/
def jsJoin (sep : String) : List String → String
  | [] => ""
  | [x] => x
  | x :: y :: rest => x ++ sep ++ jsJoin sep (y :: rest)

/-- Embedding of buildYamlReport from reportGenerator.ts: drop entries with
no dependencies; when nothing remains emit the empty YAML document, else
join one block per entry with newlines and terminate the document with a
newline. -/
def buildYamlReport (entries : List ProjectReportEntry) : String :=
  let filtered := entries.filter (fun entry => entry.dependencies.length > 0)
  if filtered.length = 0 then
    "\x7b\x7d\n"
  else
    let lines := filtered.map (fun entry =>
      let projectLine := serializeValue entry.projectName ++ ":\n"
      let dependencyLines :=
        jsJoin "\n"
          (entry.dependencies.map (fun dependency => "  - " ++ serializeValue dependency))
      projectLine ++ dependencyLines)
    jsJoin "\n" lines ++ "\n"

/-- Reference definition following the words of the specification: entries
whose dependency list is empty are dropped; if no entries remain the output
is the empty YAML mapping followed by a newline; otherwise each remaining
entry emits the double-quoted project name followed by a colon on one line
and one indented dash line per double-quoted dependency, every line being
newline-terminated. -/
def buildYamlReportSpec (entries : List ProjectReportEntry) : String :=
  let kept := entries.filter (fun entry => entry.dependencies ≠ [])
  match kept with
  | [] => "\x7b\x7d\n"
  | _ =>
    concatAll (kept.map (fun entry =>
      serializeValue entry.projectName ++ ":\n" ++
        concatAll (entry.dependencies.map
          (fun dependency => "  - " ++ serializeValue dependency ++ "\n"))))

/-! ## JavaScript string primitives

The TypeScript sources use the standard library string methods; these
definitions reproduce their semantics on Lean strings. -/

/-- Index of the first occurrence of a pattern inside a character list,
the semantics of the JavaScript indexOf method (and of a literal-text
regular expression search). -/
def firstMatchIdx (pat : List Char) : List Char → Option Nat
  | [] => if pat = [] then some 0 else none
  | c :: rest =>
    if pat <+: (c :: rest) then some 0
    else (firstMatchIdx pat rest).map (· + 1)

/-- JavaScript String.prototype.includes. -/
def jsIncludes (s pat : String) : Bool :=
  (firstMatchIdx pat.toList s.toList).isSome

/-- JavaScript String.prototype.startsWith. -/
def jsStartsWith (s pat : String) : Bool :=
  decide (pat.toList <+: s.toList)

/-- JavaScript String.prototype.endsWith. -/
def jsEndsWith (s pat : String) : Bool :=
  decide (pat.toList <:+ s.toList)

/-- Replacement of the first occurrence of a plain-text pattern, the
semantics of the JavaScript replace method with a string pattern. -/
def jsReplaceOnce (s pat repl : String) : String :=
  match firstMatchIdx pat.toList s.toList with
  | none => s
  | some i =>
    String.mk (s.toList.take i ++ repl.toList ++ s.toList.drop (i + pat.toList.length))

/-- Splitting of a character list at every occurrence of a separator
character, the semantics of the JavaScript split method with a
one-character separator (an empty input yields one empty group). -/
def charsSplitOnChar (sep : Char) : List Char → List (List Char)
  | [] => [[]]
  | c :: rest =>
    match charsSplitOnChar sep rest with
    | [] => [[]]
    | grp :: grps => if c = sep then [] :: grp :: grps else (c :: grp) :: grps

/-- JavaScript split with a one-character string separator. -/
def jsSplitChar (s : String) (sep : Char) : List String :=
  (charsSplitOnChar sep s.toList).map String.mk

/-- JavaScript String.prototype.trim (the source only trims ASCII
whitespace). -/
def jsTrim (s : String) : String :=
  String.mk
    (((s.toList.dropWhile Char.isWhitespace).reverse.dropWhile Char.isWhitespace).reverse)

/-- Lookup in an association list, the semantics of Map.prototype.get. -/
def assocFind {α : Type} (m : List (String × α)) (key : String) : Option α :=
  match m with
  | [] => none
  | (k, v) :: rest => if k = key then some v else assocFind rest key

/-! ## Module-file extractor (GoModProcessor in src/processor/goModProcessor.ts) -/

/-- Loop state of the line scan in GoModProcessor.extractDependencies. -/
structure GoModScanState where
  isRequireBlock : Bool
  dependencies : List String
deriving Repr, DecidableEq

/-- Embedding of GoModProcessor.extractDependencies: scan the file text
line by line for a require block, keep the first whitespace-delimited
token of each entry line when it mentions the host, and strip the host
prefix.  Pure text scanning; never fails. -/
def goModExtract (fileContent gitlabUrl : String) : List String :=
  let lines := jsSplitChar fileContent '\n'
  let strippedUrl := jsReplaceOnce gitlabUrl "https://" ""
  let final := lines.foldl
    (fun st line =>
      if jsStartsWith line "require (" then { st with isRequireBlock := true }
      else if jsStartsWith line ")" then { st with isRequireBlock := false }
      else if st.isRequireBlock then
        let dep := (jsSplitChar (jsTrim line) ' ').headD ""
        if jsIncludes dep strippedUrl then
          { st with dependencies :=
              st.dependencies ++ [jsReplaceOnce dep (strippedUrl ++ "/") ""] }
        else st
      else st)
    (GoModScanState.mk false [])
  final.dependencies

/-! ## Repository tree filtering (GitlabClient.findDependencyFiles) -/

/-- One discovered repository tree entry as returned by the tree listing
endpoint; findDependencyFiles reads the name field for flat listings and
the path field for recursive monorepo listings. -/
structure TreeItem where
  name : String
  path : String
deriving Repr, DecidableEq

/-- The manifest names recognised by findDependencyFiles
(the targetFiles constant in gitlabClient.ts). -/
def targetFiles : List String := ["go.mod", "composer.json", "package-lock.json"]

/-- Embedding of the selection step of GitlabClient.findDependencyFiles:
after the paginated tree pages have been accumulated into one list, map
each entry to its path (monorepo) or name, and keep those for which some
target manifest name is a suffix of the mapped string (the endsWith test
of the source). -/
def findDependencyFilesSelect (isMonorepo : Bool) (files : List TreeItem) : List String :=
  (files.map (fun f => if isMonorepo then f.path else f.name)).filter
    (fun name => targetFiles.any (fun file => jsEndsWith name file))

/-- Final path component of a slash-separated path. -/
def pathBasename (s : String) : String :=
  (jsSplitChar s '/').getLastD s

/-! ## Dependency file aggregation (processAllDependencyFiles in
src/utils/dependencyProcessor.ts)

The per-file work of processDependencyFile (content fetch, processor
dispatch, extraction) is abstracted into one oracle function from a file
path to either a dependency list or the cause of the thrown error; the
missing-processor case is the oracle returning an empty list. -/

/-- Typed file-level failure
(class DependencyFileProcessingError in dependencyProcessor.ts). -/
structure DependencyFileProcessingError where
  projectId : Nat
  file : String
  cause : String
deriving Repr, DecidableEq

/-- One failed dependency with its cause
(interface DependencyFailure in dependencyProcessor.ts). -/
structure DependencyFailure where
  dependency : String
  cause : String
deriving Repr, DecidableEq

/-- Aggregated error thrown after a loop over files or dependencies
(class DependencyProcessingError in dependencyProcessor.ts). -/
structure DependencyProcessingError where
  sourceProjectId : Nat
  failures : List DependencyFailure
deriving Repr, DecidableEq

/-- Loop state of processAllDependencyFiles: the files handed to
processDependencyFile so far (the processing trace), the dependencies
accumulated from successful files, and the collected file errors. -/
structure FileLoopState where
  processed : List String
  allDependencies : List String
  fileErrors : List DependencyFileProcessingError
deriving Repr, DecidableEq

/-- Embedding of the loop body of processAllDependencyFiles: every file is
handed to the per-file oracle; a success appends its dependencies, a
failure is wrapped into a typed file error and collected, and the loop
continues either way. -/
def processFileStep (processFile : String → Except String (List String))
    (projectId : Nat) (st : FileLoopState) (file : String) : FileLoopState :=
  match processFile file with
  | .ok dependencies =>
    { st with processed := st.processed ++ [file],
              allDependencies := st.allDependencies ++ dependencies }
  | .error cause =>
    { st with processed := st.processed ++ [file],
              fileErrors := st.fileErrors ++ [⟨projectId, file, cause⟩] }

/-- Embedding of processAllDependencyFiles: loop over every file, then, if
any file failed, throw one aggregated DependencyProcessingError naming
every failed file and its cause; only when no file failed are the
accumulated dependencies returned. -/
def processAllDependencyFiles (processFile : String → Except String (List String))
    (projectId : Nat) (dependencyFiles : List String) :
    FileLoopState × Except DependencyProcessingError (List String) :=
  let st := dependencyFiles.foldl (processFileStep processFile projectId) ⟨[], [], []⟩
  if st.fileErrors.length > 0 then
    (st, .error ⟨projectId, st.fileErrors.map (fun err => ⟨err.file, err.cause⟩)⟩)
  else
    (st, .ok st.allDependencies)

/-! ## Allowlist reconciliation (processDependencies in
src/utils/dependencyProcessor.ts)

The GitLab client methods used by the loop become an environment of
functions; every allowCiJobTokenAccess invocation is recorded in the
writes trace of the threaded state (the call is recorded even when the
server then rejects it, since the write request was issued). -/

/-- Client operations consumed by the reconciliation loop. -/
structure GitlabEnv where
  getProjectId : String → Except String Nat
  isProjectWhitelisted : Nat → Nat → Except String Bool
  allowCiJobTokenAccess : Nat → Nat → Except String Unit

/-- Loop state of processDependencies: issued allow-write calls (dependency
project ID paired with source project ID) and collected failures. -/
structure DepRunState where
  writes : List (Nat × Nat)
  failures : List DependencyFailure
deriving Repr, DecidableEq

/-- Embedding of one iteration of the processDependencies loop: resolve the
dependency path to its numeric ID, check the allowlist, write only when the
source project is absent, and convert any thrown error into a collected
per-dependency failure. -/
def processOneDependency (env : GitlabEnv) (sourceProjectId : Nat)
    (st : DepRunState) (dependency : String) : DepRunState :=
  match env.getProjectId dependency with
  | .error cause => { st with failures := st.failures ++ [⟨dependency, cause⟩] }
  | .ok dependencyProjectId =>
    match env.isProjectWhitelisted sourceProjectId dependencyProjectId with
    | .error cause => { st with failures := st.failures ++ [⟨dependency, cause⟩] }
    | .ok true => st
    | .ok false =>
      let st1 := { st with writes := st.writes ++ [(dependencyProjectId, sourceProjectId)] }
      match env.allowCiJobTokenAccess dependencyProjectId sourceProjectId with
      | .ok _ => st1
      | .error cause => { st1 with failures := st1.failures ++ [⟨dependency, cause⟩] }

/-- Embedding of processDependencies: loop over every dependency collecting
failures, then throw one aggregated error when at least one dependency
failed. -/
def processDependencies (env : GitlabEnv) (dependencies : List String)
    (sourceProjectId : Nat) : DepRunState × Except DependencyProcessingError Unit :=
  let st := dependencies.foldl (processOneDependency env sourceProjectId) ⟨[], []⟩
  if st.failures.length > 0 then
    (st, .error ⟨sourceProjectId, st.failures⟩)
  else
    (st, .ok ())

/-! ## Bulk orchestration (TokenScopeAdjuster.adjustAllProjects in
src/services/tokenScopeAdjuster.ts)

The call to adjustProject is abstracted into one oracle from a project ID
to either a report entry option (a dry-run entry, or null) or the cause of
the thrown error; its internal effects (scanning, allowlist writes) happen
inside the oracle and are therefore performed exactly when the project is
attempted. -/

/-- A project as delivered by getAllProjects; only its ID is inspected by
the bulk loop, and a missing ID makes the loop skip the project. -/
structure GitlabProject where
  id : Option Nat
deriving Repr, DecidableEq

/-- Options of adjustAllProjects as far as the loop inspects them. -/
structure AdjustAllOptions where
  dryRun : Bool
  hasReporter : Bool
deriving Repr, DecidableEq

/-- Per-project failure record
(interface ProjectAdjustmentFailure in tokenScopeAdjuster.ts). -/
structure ProjectAdjustmentFailure where
  projectId : Nat
  cause : String
deriving Repr, DecidableEq

/-- Observable state threaded through the bulk loop: the project IDs for
which adjustProject was invoked, the collected dry-run entries, and the
entries appended to the incrementally persisted report. -/
structure BulkState where
  attempted : List Nat
  collectedEntries : List ProjectReportEntry
  reporterAppends : List ProjectReportEntry
deriving Repr, DecidableEq

/-- The project ID used by the bulk loop, when the guard on a missing ID
passes; a zero ID is falsy in JavaScript and is skipped like a missing
one. -/
def bulkValidId (project : GitlabProject) : Option Nat :=
  match project.id with
  | none => none
  | some pid => if pid = 0 then none else some pid

/-- Embedding of one iteration of the adjustAllProjects loop: skip projects
without an ID, invoke adjustProject, collect a returned entry (appending it
to the report when in dry-run mode with a reporter), and convert a thrown
error into a collected per-project failure. -/
def adjustAllProjectsStep (adjust : Nat → Except String (Option ProjectReportEntry))
    (options : AdjustAllOptions)
    (acc : BulkState × List ProjectAdjustmentFailure)
    (project : GitlabProject) : BulkState × List ProjectAdjustmentFailure :=
  match bulkValidId project with
  | none => acc
  | some pid =>
    let (st, failures) := acc
    let st := { st with attempted := st.attempted ++ [pid] }
    match adjust pid with
    | .error cause => (st, failures ++ [⟨pid, cause⟩])
    | .ok none => (st, failures)
    | .ok (some entry) =>
      let st := { st with collectedEntries := st.collectedEntries ++ [entry] }
      let st :=
        if options.dryRun && options.hasReporter then
          { st with reporterAppends := st.reporterAppends ++ [entry] }
        else st
      (st, failures)

/-- Embedding of TokenScopeAdjuster.adjustAllProjects after the project
list has been fetched: loop over every project, then throw one aggregated
AdjustAllProjectsError carrying every per-project failure when at least one
project failed, else return the collected entries.  (The early return on an
empty project list coincides with the fold on an empty list.) -/
def adjustAllProjects (adjust : Nat → Except String (Option ProjectReportEntry))
    (options : AdjustAllOptions) (projects : List GitlabProject) :
    BulkState × Except (List ProjectAdjustmentFailure) (List ProjectReportEntry) :=
  let (st, failures) :=
    projects.foldl (adjustAllProjectsStep adjust options) (⟨[], [], []⟩, [])
  if failures.length > 0 then (st, .error failures)
  else (st, .ok st.collectedEntries)

/-! ## Memoised reconciliation (the current src/utils/dependencyProcessor.ts) -/

/-- State of the memoised reconciliation run: the project-ID cache shared
across the whole run, the allowlist-check cache keyed by the (source,
dependency) pair, the trace of getProjectId lookups actually issued, the
issued allow-write calls, and the collected failures. -/
structure CachedRunState where
  idCache : List (String × Except String Nat)
  pairCache : List ((Nat × Nat) × Bool)
  lookups : List String
  writes : List (Nat × Nat)
  failures : List DependencyFailure
deriving Repr

/-- Lookup in an association list with arbitrary keys. -/
def pairFind {κ α : Type} [DecidableEq κ] (m : List (κ × α)) (key : κ) : Option α :=
  match m with
  | [] => none
  | (k, v) :: rest => if k = key then some v else pairFind rest key

/-- Modelled from the spec: resolution step of the current
utils/dependencyProcessor.ts module, which is absent from the sources (only
an older snapshot without memoisation, its callers, its benchmark and
docs/performance.md are present).  Spec section 4.4 step 1: the dependency
path is resolved to its numeric project ID through a cache shared across
the whole reconciliation run, and section 5 requires that an entry, once
set for a success or a failure, is never overwritten, so a repeated path
costs one lookup. -/
def cachedResolveProjectId (env : GitlabEnv) (st : CachedRunState)
    (dependency : String) : Except String Nat × CachedRunState :=
  match assocFind st.idCache dependency with
  | some cached => (cached, st)
  | none =>
    let result := env.getProjectId dependency
    (result, { st with idCache := st.idCache ++ [(dependency, result)],
                       lookups := st.lookups ++ [dependency] })

/-- Modelled from the spec: allowlist check of the current
utils/dependencyProcessor.ts, memoised per (source, dependency) pair for
the run (spec section 4.4 step 2). -/
def cachedWhitelistCheck (env : GitlabEnv) (st : CachedRunState)
    (sourceProjectId dependencyProjectId : Nat) : Except String Bool × CachedRunState :=
  match pairFind st.pairCache (sourceProjectId, dependencyProjectId) with
  | some cached => (.ok cached, st)
  | none =>
    match env.isProjectWhitelisted sourceProjectId dependencyProjectId with
    | .ok answer =>
      (.ok answer,
       { st with pairCache := st.pairCache ++ [((sourceProjectId, dependencyProjectId), answer)] })
    | .error cause => (.error cause, st)

/-- Modelled from the spec: one dependency of the current memoised
reconciliation loop (spec section 4.4 steps 1 to 4): resolve through the
run-wide cache, check the allowlist through the pair cache, write only when
the source project is absent, and collect any failure without stopping the
loop. -/
def cachedProcessOne (env : GitlabEnv) (sourceProjectId : Nat)
    (st : CachedRunState) (dependency : String) : CachedRunState :=
  match cachedResolveProjectId env st dependency with
  | (.error cause, st1) => { st1 with failures := st1.failures ++ [⟨dependency, cause⟩] }
  | (.ok dependencyProjectId, st1) =>
    match cachedWhitelistCheck env st1 sourceProjectId dependencyProjectId with
    | (.error cause, st2) => { st2 with failures := st2.failures ++ [⟨dependency, cause⟩] }
    | (.ok true, st2) => st2
    | (.ok false, st2) =>
      let st3 := { st2 with writes := st2.writes ++ [(dependencyProjectId, sourceProjectId)] }
      match env.allowCiJobTokenAccess dependencyProjectId sourceProjectId with
      | .ok _ => st3
      | .error cause => { st3 with failures := st3.failures ++ [⟨dependency, cause⟩] }

/-- Modelled from the spec: the current processDependencies of
utils/dependencyProcessor.ts with run-wide memoisation.  The bounded worker
pool (default width five) is modelled as sequential processing, which spec
section 5 declares order-insignificant for the final aggregation; failures
are aggregated into one error after the loop exactly as in the snapshot
version. -/
def processDependenciesCached (env : GitlabEnv) (dependencies : List String)
    (sourceProjectId : Nat) : CachedRunState × Except DependencyProcessingError Unit :=
  let st := dependencies.foldl (cachedProcessOne env sourceProjectId) ⟨[], [], [], [], []⟩
  if st.failures.length > 0 then
    (st, .error ⟨sourceProjectId, st.failures⟩)
  else
    (st, .ok ())

/-! ## Project reference resolution (ComposerLockProcessor.resolveProjectId
in the composer lockfile processor) -/

/-- Project payload as far as the resolver inspects it: the
path_with_namespace field may be missing, in which case the source
coalesces it to null. -/
structure ProjectInfo where
  pathWithNamespace : Option String
deriving Repr, DecidableEq

/-- Project-metadata lookup consumed by the resolver and by the JS-lockfile
extractor. -/
structure ProjectLookupEnv where
  getProject : String → Except String ProjectInfo

/-- State owned by one ComposerLockProcessor instance: the project cache
(null entries record failed resolutions), the once-per-endpoint set of
reported unsupported group endpoints, the trace of getProject lookups
actually issued, and the emitted diagnostics. -/
structure LockState where
  projectCache : List (String × Option String)
  unsupportedRefs : List String
  lookups : List String
  diagnostics : List String
deriving Repr, DecidableEq

/-- Embedding of ComposerLockProcessor.resolveProjectId: a cache hit
returns the stored value (null coalesced) without any network call; a miss
issues one getProject lookup and stores its outcome, caching null and
reporting a diagnostic on failure. -/
def lockResolveProjectId (env : ProjectLookupEnv) (st : LockState)
    (id : String) : Option String × LockState :=
  match assocFind st.projectCache id with
  | some cached => (cached, st)
  | none =>
    match env.getProject id with
    | .ok project =>
      let path := project.pathWithNamespace
      (path, { st with projectCache := st.projectCache ++ [(id, path)],
                       lookups := st.lookups ++ [id] })
    | .error cause =>
      (none, { st with projectCache := st.projectCache ++ [(id, none)],
                       lookups := st.lookups ++ [id],
                       diagnostics := st.diagnostics ++ ["Error fetching project " ++ id ++ ": " ++ cause] })

/-! ## JS-lockfile extractor (NpmProcessor in src/processor/npmProcessor.ts)

The nested dependencies tree of a parsed package-lock.json becomes an
inductive type of dependencies maps: a map is a list of entries, and each
entry carries the package name, the optional resolved URL of its node and
the child map of that node (interface Dependency of npmProcessor.ts,
restricted to the fields the extractor reads, with the node inlined into
its map entry).  An absent child map and an empty one behave identically in
the walk, so both are the empty map.  JSON.parse is the platform parser;
its outcome is an optional tree, and a missing outcome models a parse
exception, which NpmProcessor.extractDependencies does not catch. -/

/-- A dependencies map of a parsed package-lock.json. -/
inductive NpmDeps where
  | nil
  | cons (name : String) (resolved : Option String) (children : NpmDeps) (rest : NpmDeps)
deriving Repr

/-- Number of nodes in a dependencies map, counting nested maps. -/
def npmDepsSize : NpmDeps → Nat
  | .nil => 0
  | .cons _ _ children rest => 1 + npmDepsSize children + npmDepsSize rest

/-- JavaScript truthiness of the resolved field: present and non-empty. -/
def npmTruthy : Option String → Bool
  | none => false
  | some url => !url.isEmpty

/-- Attempted match of the extractProjectId pattern at the start of a
character list: the escaped GitLab URL (a literal prefix, thanks to
escapeRegExp) followed by the projects API segment, one or more digits and
the packages segment; returns the captured digits. -/
def npmMatchHere (pre : List Char) (l : List Char) : Option String :=
  if pre <+: l then
    let after := l.drop pre.length
    let digits := after.takeWhile Char.isDigit
    if digits.isEmpty then none
    else if "/packages".toList <+: after.drop digits.length then
      some (String.mk digits)
    else none
  else none

/-- First match of the extractProjectId pattern anywhere in a character
list, the semantics of RegExp.prototype.exec on the pattern built by
NpmProcessor.extractProjectId. -/
def npmMatchFrom (pre : List Char) : List Char → Option String
  | [] => npmMatchHere pre []
  | c :: rest =>
    match npmMatchHere pre (c :: rest) with
    | some digits => some digits
    | none => npmMatchFrom pre rest

/-- Embedding of NpmProcessor.extractProjectId: search the resolved URL for
the GitLab packages API pattern and capture the numeric project ID. -/
def npmExtractProjectId (resolvedUrl gitlabUrl : String) : Option String :=
  npmMatchFrom (gitlabUrl ++ "/api/v4/projects/").toList resolvedUrl.toList

/-- State of one NpmProcessor.extractDependencies run: the insertion
ordered set of resolved project paths, the trace of getProject lookups
actually issued, and the reported per-lookup errors. -/
structure NpmState where
  found : List String
  lookups : List String
  diagnostics : List String
deriving Repr, DecidableEq

/-- Embedding of NpmProcessor.addProjectToSet: always issue a getProject
lookup (there is no cache in this class), add the returned
path_with_namespace to the set when present, and report a diagnostic on
failure. -/
def npmAddProjectToSet (env : ProjectLookupEnv) (projectId : String)
    (st : NpmState) : NpmState :=
  match env.getProject projectId with
  | .ok project =>
    match project.pathWithNamespace with
    | some path =>
      { st with lookups := st.lookups ++ [projectId],
                found := if st.found.contains path then st.found else st.found ++ [path] }
    | none => { st with lookups := st.lookups ++ [projectId] }
  | .error cause =>
    { st with lookups := st.lookups ++ [projectId],
              diagnostics := st.diagnostics ++ ["Error fetching project " ++ projectId ++ ": " ++ cause] }

/-- Embedding of the loop of NpmProcessor.extractDependencies over one
popped dependencies map: each node with a truthy resolved URL is handed to
processDependency, which extracts a project ID from the URL, resolves it
into the set, and pushes the child map onto the stack; a node without a
resolved URL is skipped entirely, its child map not pushed.  Returns the
updated state and the maps pushed while iterating this map, in push
order. -/
def npmProcessEntries (env : ProjectLookupEnv) (gitlabUrl : String) :
    NpmDeps → NpmState → NpmState × List NpmDeps
  | .nil, st => (st, [])
  | .cons _ resolved children rest, st =>
    if npmTruthy resolved then
      let st1 :=
        match npmExtractProjectId (resolved.getD "") gitlabUrl with
        | some projectId => npmAddProjectToSet env projectId st
        | none => st
      let next := npmProcessEntries env gitlabUrl rest st1
      (next.1, children :: next.2)
    else
      npmProcessEntries env gitlabUrl rest st

/-- Total node count of a stack of dependencies maps. -/
def npmStackSize (stack : List NpmDeps) : Nat :=
  (stack.map npmDepsSize).sum

/-- Number of entries of a dependencies map, nested maps not counted. -/
def npmEntryCount : NpmDeps → Nat
  | .nil => 0
  | .cons _ _ _ rest => 1 + npmEntryCount rest

/-- Embedding of the while loop of NpmProcessor.extractDependencies: pop
the top dependencies map, iterate over its entries, and continue with the
maps it pushed on top of the remaining stack. -/
def npmWalk (env : ProjectLookupEnv) (gitlabUrl : String)
    (stack : List NpmDeps) (st : NpmState) : NpmState :=
  match stack with
  | [] => st
  | m :: rest =>
    let next := npmProcessEntries env gitlabUrl m st
    npmWalk env gitlabUrl (next.2.reverse ++ rest) next.1
termination_by (npmStackSize stack, stack.length)
decreasing_by
  simp_wf
  have hsz : ∀ (mm : NpmDeps) (stt : NpmState),
      ((npmProcessEntries env gitlabUrl mm stt).2.map npmDepsSize).sum + npmEntryCount mm ≤
        npmDepsSize mm := by
    intro mm
    induction mm with
    | nil => intro stt; simp [npmProcessEntries, npmEntryCount, npmDepsSize]
    | cons nm rs ch rst ihc ihr =>
      intro stt
      by_cases h : npmTruthy rs = true
      · cases hext : npmExtractProjectId (rs.getD "") gitlabUrl with
        | none =>
          simp only [npmProcessEntries, h, if_true, hext, List.map_cons, List.sum_cons,
            npmEntryCount, npmDepsSize]
          have h2 := ihr stt
          omega
        | some projectId =>
          simp only [npmProcessEntries, h, if_true, hext, List.map_cons, List.sum_cons,
            npmEntryCount, npmDepsSize]
          have h2 := ihr (npmAddProjectToSet env projectId stt)
          omega
      · simp only [npmProcessEntries, h, if_false, Bool.false_eq_true,
          npmEntryCount, npmDepsSize]
        have h2 := ihr stt
        omega
  have hsz2 := hsz m st
  rcases m with _ | ⟨name, resolved, children, rest2⟩
  · simp only [npmProcessEntries, npmStackSize, npmDepsSize, List.map_nil,
      List.reverse_nil, List.nil_append, List.map_cons, List.sum_cons,
      List.length_nil, Nat.zero_add]
    exact Prod.Lex.right _ (by omega)
  · apply Prod.Lex.left
    have hc : 1 ≤ npmEntryCount (NpmDeps.cons name resolved children rest2) := by
      simp [npmEntryCount]
    simp only [npmStackSize, List.map_append, List.map_reverse, List.sum_append,
      List.sum_reverse, List.map_cons, List.sum_cons] at hsz2 ⊢
    omega

/-- Embedding of NpmProcessor.extractDependencies: JSON.parse the file
content (a missing parse outcome models the SyntaxError thrown on
malformed input, which this method does not catch, unlike the Composer
extractors), seed the stack with the top-level dependencies map, and run
the iterative walk.  The found field of the final state is the returned
deduplicated list. -/
def npmExtractDependencies (env : ProjectLookupEnv) (gitlabUrl : String)
    (parsed : Option NpmDeps) : Except String NpmState :=
  match parsed with
  | none => .error "SyntaxError: JSON.parse"
  | some dependencies => .ok (npmWalk env gitlabUrl [dependencies] ⟨[], [], []⟩)

/-- Removal of the child maps of nodes without a truthy resolved URL, at
every depth.  The walk never pushes those child maps, so pruning them
cannot change the outcome; this is the statement of claim C10. -/
def npmPrune : NpmDeps → NpmDeps
  | .nil => .nil
  | .cons name resolved children rest =>
    if npmTruthy resolved then .cons name resolved (npmPrune children) (npmPrune rest)
    else .cons name resolved .nil (npmPrune rest)

/-! ## PHP-manifest extractor (ComposerProcessor, the variant cited by the
claims, and ComposerLockProcessor)

JSON.parse and the WHATWG URL parser are platform builtins and enter the
embedding as oracle functions: the parse outcome of a manifest is an
optional parsed value (missing models a thrown SyntaxError), parseUrl
models the URL constructor (missing models a thrown TypeError) and
decodeUriComp models decodeURIComponent (missing models a thrown
URIError). -/

/-- Repository entry of a parsed composer.json
(interface Repository in the Composer manifest processor). -/
structure ComposerRepository where
  repoType : String
  url : String
deriving Repr, DecidableEq

/-- Embedding of ComposerProcessor.extractDependencies: on a parse failure
the catch logs an error and the collected, still empty, list is returned;
otherwise every repositories entry whose URL mentions the host contributes
the URL with scheme and host stripped.  The parsed value is the entry list
of the repositories object; a manifest without a repositories object
parses to the empty entry list. -/
def composerExtract (parsed : Option (List (String × ComposerRepository)))
    (gitlabUrl : String) : List String :=
  let strippedUrl := jsReplaceOnce gitlabUrl "https://" ""
  match parsed with
  | none => []
  | some repositories =>
    repositories.foldl
      (fun dependencies entry =>
        let repository := entry.2
        if !repository.url.isEmpty && jsIncludes repository.url strippedUrl then
          dependencies ++ [jsReplaceOnce repository.url ("https://" ++ strippedUrl ++ "/") ""]
        else dependencies)
      []

/-- Relevant components of a parsed WHATWG URL. -/
structure UrlParts where
  host : String
  hostname : String
  pathname : String
deriving Repr, DecidableEq

/-- Platform builtins used by the Composer lockfile processor. -/
structure PlatformEnv where
  parseUrl : String → Option UrlParts
  decodeUriComp : String → Option String

/-- Lowercasing of a string, the semantics of toLowerCase on the ASCII
identifiers handled here. -/
def strToLower (s : String) : String :=
  String.mk (s.toList.map Char.toLower)

/-- Removal of one leading http or https scheme, the anchored regular
expression replacement in ComposerLockProcessor.extractHost. -/
def stripHttpScheme (s : String) : String :=
  if jsStartsWith s "https://" then String.mk (s.toList.drop 8)
  else if jsStartsWith s "http://" then String.mk (s.toList.drop 7)
  else s

/-- Embedding of ComposerLockProcessor.extractHost. -/
def lockExtractHost (platform : PlatformEnv) (url : String) : String :=
  match platform.parseUrl url with
  | some parsed => strToLower parsed.host
  | none => strToLower (stripHttpScheme url)

/-- Embedding of ComposerLockProcessor.normalizeProjectPath: strip leading
slashes, cut at the first archive delimiter, strip a trailing .git (case
insensitive), then decode, keeping the undecoded text when decoding
throws. -/
def lockNormalizeProjectPath (platform : PlatformEnv) (pathname : String) : Option String :=
  let normalized := String.mk (pathname.toList.dropWhile (fun c => c = '/'))
  if normalized.isEmpty then none
  else
    let normalized :=
      match firstMatchIdx "/-/".toList normalized.toList with
      | some archiveDelimiter => String.mk (normalized.toList.take archiveDelimiter)
      | none => normalized
    let normalized :=
      if jsEndsWith (strToLower normalized) ".git" then
        String.mk (normalized.toList.take (normalized.toList.length - 4))
      else normalized
    if normalized.isEmpty then none
    else
      match platform.decodeUriComp normalized with
      | some decoded => some decoded
      | none => some normalized

/-- Match of the scp-like SSH pattern: a case-insensitive git marker, the
host captured up to the first colon, and a nonempty remainder. -/
def scpLikeMatch (url : String) : Option (String × String) :=
  if strToLower (String.mk (url.toList.take 4)) = "git@" then
    let rest := url.toList.drop 4
    match firstMatchIdx [':'] rest with
    | none => none
    | some i =>
      let hostname := rest.take i
      let path := rest.drop (i + 1)
      if hostname.isEmpty || path.isEmpty then none
      else some (String.mk hostname, String.mk path)
  else none

/-- Embedding of ComposerLockProcessor.extractProjectPath: try the URL
parser first, falling back to the scp-like SSH form only when parsing
throws; in both branches require the host to match, normalize, and refuse
paths that are really projects API references. -/
def lockExtractProjectPath (platform : PlatformEnv) (url host : String) : Option String :=
  match platform.parseUrl url with
  | some parsed =>
    if strToLower parsed.hostname ≠ host then none
    else
      match lockNormalizeProjectPath platform parsed.pathname with
      | none => none
      | some normalized =>
        if jsStartsWith (strToLower normalized) "api/v4/projects/" then none
        else some normalized
  | none =>
    match scpLikeMatch url with
    | none => none
    | some (hostname, path) =>
      if strToLower hostname ≠ host then none
      else
        match lockNormalizeProjectPath platform path with
        | none => none
        | some normalized =>
          if jsStartsWith (strToLower normalized) "api/v4/projects/" then none
          else some normalized

/-- Reference extracted from a projects API URL: either a numeric ID to be
resolved or a path used directly (type ApiReference in the lockfile
processor). -/
inductive ApiReference where
  | refId (value : String)
  | refPath (value : String)
deriving Repr, DecidableEq

/-- Embedding of ComposerLockProcessor.extractApiReference: split the
pathname into segments, find the projects segment, take and decode the
following segment, and classify it as a numeric ID or a direct path. -/
def lockExtractApiReference (platform : PlatformEnv) (url host : String) :
    Option ApiReference :=
  match platform.parseUrl url with
  | none => none
  | some parsed =>
    if strToLower parsed.hostname ≠ host then none
    else
      let segments := (jsSplitChar parsed.pathname '/').filter (fun s => !s.isEmpty)
      match segments.findIdx? (fun segment => segment = "projects") with
      | none => none
      | some projectsIndex =>
        if projectsIndex = segments.length - 1 then none
        else
          match platform.decodeUriComp (segments.getD (projectsIndex + 1) "") with
          | none => none
          | some reference =>
            if reference.isEmpty then none
            else if reference.toList.all Char.isDigit then some (.refId reference)
            else some (.refPath reference)

/-- Embedding of ComposerLockProcessor.isUnsupportedEndpoint: a group-level
package endpoint on the target host is unsupported; it is reported once per
distinct endpoint path through the instance set. -/
def lockIsUnsupportedEndpoint (platform : PlatformEnv) (url host : String)
    (st : LockState) : Bool × LockState :=
  match platform.parseUrl url with
  | none => (false, st)
  | some parsed =>
    if strToLower parsed.hostname ≠ host then (false, st)
    else
      let pathname := strToLower parsed.pathname
      if !(jsStartsWith pathname "/api/v4/groups/" || jsStartsWith pathname "/api/v4/group/") then
        (false, st)
      else if st.unsupportedRefs.contains pathname then (true, st)
      else
        (true, { st with unsupportedRefs := st.unsupportedRefs ++ [pathname],
                         diagnostics := st.diagnostics ++
                           ["Skipping GitLab group package endpoint " ++ parsed.pathname] })

/-- Insertion into the insertion-ordered dependency set, the semantics of
Set.prototype.add followed by Array.from. -/
def setAdd (s : List String) (x : String) : List String :=
  if s.contains x then s else s ++ [x]

/-- One package of a parsed composer.lock, restricted to the URLs the
extractor reads. -/
structure ComposerPackage where
  sourceUrl : Option String
  distUrl : Option String
deriving Repr, DecidableEq

/-- A parsed composer.lock: the packages and packages-dev arrays, an
absent array being the empty list. -/
structure ComposerLockFile where
  packages : List ComposerPackage
  packagesDev : List ComposerPackage
deriving Repr, DecidableEq

/-- URLs of one package in inspection order, dropping absent and empty
entries (the Boolean filter of the source). -/
def packageUrls (p : ComposerPackage) : List String :=
  ([p.sourceUrl, p.distUrl].filterMap id).filter (fun url => !url.isEmpty)

/-- Embedding of the per-URL body of the ComposerLockProcessor loop: skip
unsupported group endpoints, prefer a direct project path, then an API
reference, resolving numeric IDs through the cached resolver. -/
def lockProcessUrl (platform : PlatformEnv) (lookup : ProjectLookupEnv) (host : String)
    (acc : List String × LockState) (url : String) : List String × LockState :=
  let (dependencies, st) := acc
  match lockIsUnsupportedEndpoint platform url host st with
  | (true, st1) => (dependencies, st1)
  | (false, st1) =>
    match lockExtractProjectPath platform url host with
    | some directPath => (setAdd dependencies directPath, st1)
    | none =>
      match lockExtractApiReference platform url host with
      | none => (dependencies, st1)
      | some (.refPath value) => (setAdd dependencies value, st1)
      | some (.refId value) =>
        match lockResolveProjectId lookup st1 value with
        | (some resolvedPath, st2) => (setAdd dependencies resolvedPath, st2)
        | (none, st2) => (dependencies, st2)

/-- Embedding of ComposerLockProcessor.extractDependencies: a parse failure
is caught, logged and yields the empty list; otherwise the packages and
packages-dev arrays are concatenated and every package URL is processed
into the insertion-ordered dependency set. -/
def composerLockExtract (platform : PlatformEnv) (lookup : ProjectLookupEnv)
    (parsed : Option ComposerLockFile) (gitlabUrl : String) (st : LockState) :
    List String × LockState :=
  match parsed with
  | none =>
    ([], { st with diagnostics := st.diagnostics ++ ["Failed to parse composer.lock file"] })
  | some lockfile =>
    let packages := lockfile.packages ++ lockfile.packagesDev
    if packages.isEmpty then ([], st)
    else
      let host := lockExtractHost platform gitlabUrl
      packages.foldl
        (fun acc composerPackage =>
          (packageUrls composerPackage).foldl (lockProcessUrl platform lookup host) acc)
        ([], st)

/-- Invariant of the memoised reconciliation run: a path has been looked
up exactly once when it has a cache entry and never otherwise. -/
def lookupInv (st : CachedRunState) : Prop :=
  ∀ q, st.lookups.count q = (if (assocFind st.idCache q).isSome then 1 else 0)

/-! ## Concrete instances used by witnesses and counterexamples -/

/-- Client environment in which every dependency resolves to project 5 and
the allowlist already contains the source project. -/
def envAllWhitelisted : GitlabEnv :=
  ⟨fun _ => .ok 5, fun _ _ => .ok true, fun _ _ => .ok ()⟩

/-- Per-file scan oracle in which file a succeeds with one dependency and
every other file fails. -/
def scanEnvPartial : String → Except String (List String) :=
  fun file => if file = "a" then .ok ["g/b"] else .error "boom"

/-- Module file in which the same dependency is required twice. -/
def goModDupContent : String :=
  "require (\n\tgl.example/g/a v1.0.0\n\tgl.example/g/a v1.0.0\n)"

/-- Per-file scan oracle returning the module-file extraction of the
duplicated require block. -/
def scanEnvGoModDup : String → Except String (List String) :=
  fun _ => .ok (goModExtract goModDupContent "https://gl.example")

/-- Project lookup stub: project 123 resolves to path g/p, everything else
fails. -/
def lookupEnvNpm : ProjectLookupEnv :=
  ⟨fun id => if id = "123" then .ok ⟨some "g/p"⟩ else .error "not found"⟩

/-- Lockfile tree in which two sibling nodes carry resolved URLs naming the
same GitLab project 123. -/
def npmLockDup : NpmDeps :=
  .cons "a" (some "https://host/api/v4/projects/123/packages/npm/x/-/x-1.0.0.tgz") .nil
    (.cons "b" (some "https://host/api/v4/projects/123/packages/npm/y/-/y-1.0.0.tgz") .nil .nil)

/-- Lockfile tree whose only GitLab package reference sits below a node
without a resolved URL. -/
def npmLockHidden : NpmDeps :=
  .cons "a" none
    (.cons "x" (some "https://host/api/v4/projects/123/packages/npm/x/-/x-1.0.0.tgz") .nil .nil)
    .nil

/-! ## Supporting lemmas -/

theorem npmProcessEntries_prune (env : ProjectLookupEnv) (gitlabUrl : String)
    (m : NpmDeps) (st : NpmState) :
    npmProcessEntries env gitlabUrl (npmPrune m) st =
      ((npmProcessEntries env gitlabUrl m st).1,
       (npmProcessEntries env gitlabUrl m st).2.map npmPrune) := by
  induction m generalizing st with
  | nil => simp [npmPrune, npmProcessEntries]
  | cons name resolved children rest ihc ihr =>
    by_cases h : npmTruthy resolved = true
    · simp only [npmPrune, h, if_true, npmProcessEntries, List.map_cons]
      rw [ihr]
    · simp only [npmPrune, h, if_false, Bool.false_eq_true, npmProcessEntries]
      rw [ihr]

theorem npmWalk_prune (env : ProjectLookupEnv) (gitlabUrl : String)
    (stack : List NpmDeps) (st : NpmState) :
    npmWalk env gitlabUrl (stack.map npmPrune) st = npmWalk env gitlabUrl stack st := by
  induction stack, st using npmWalk.induct env gitlabUrl with
  | case1 st => simp [npmWalk]
  | case2 st m rest next ih =>
    simp only [List.map_cons, npmWalk, npmProcessEntries_prune]
    rw [← List.map_reverse, ← List.map_append]
    exact ih

theorem npmAddProjectToSet_nodup (env : ProjectLookupEnv) (projectId : String)
    (st : NpmState) (h : st.found.Nodup) :
    (npmAddProjectToSet env projectId st).found.Nodup := by
  simp only [npmAddProjectToSet]
  cases henv : env.getProject projectId with
  | error cause => simpa using h
  | ok project =>
    cases hpath : project.pathWithNamespace with
    | none => simpa [hpath] using h
    | some path =>
      by_cases hmem : path ∈ st.found
      · simpa [hpath, hmem] using h
      · have happ : (st.found ++ [path]).Nodup := by
          rw [List.nodup_append]
          refine ⟨h, List.nodup_singleton path, ?_⟩
          intro a ha hb
          rw [List.mem_singleton] at hb
          subst hb
          exact hmem ha
        simpa [hpath, hmem] using happ

theorem npmProcessEntries_nodup (env : ProjectLookupEnv) (gitlabUrl : String)
    (m : NpmDeps) (st : NpmState) (h : st.found.Nodup) :
    (npmProcessEntries env gitlabUrl m st).1.found.Nodup := by
  induction m generalizing st with
  | nil => simpa [npmProcessEntries] using h
  | cons name resolved children rest ihc ihr =>
    by_cases htru : npmTruthy resolved = true
    · simp only [npmProcessEntries, htru, if_true]
      apply ihr
      cases hext : npmExtractProjectId (resolved.getD "") gitlabUrl with
      | none => simpa [hext] using h
      | some projectId => simpa [hext] using npmAddProjectToSet_nodup env projectId st h
    · simp only [npmProcessEntries, htru, if_false, Bool.false_eq_true]
      exact ihr st h

theorem npmWalk_nodup (env : ProjectLookupEnv) (gitlabUrl : String)
    (stack : List NpmDeps) (st : NpmState) (h : st.found.Nodup) :
    (npmWalk env gitlabUrl stack st).found.Nodup := by
  induction stack, st using npmWalk.induct env gitlabUrl with
  | case1 st => simpa [npmWalk] using h
  | case2 st m rest next ih =>
    rw [npmWalk]
    exact ih (npmProcessEntries_nodup env gitlabUrl m st h)

/-! ## Specification functions used by the claim statements -/

/-- Per-project failures collected by a bulk run: one entry, in order, for
every project with a valid ID whose adjustment throws. -/
def bulkFailuresOf (adjust : Nat → Except String (Option ProjectReportEntry))
    (projects : List GitlabProject) : List ProjectAdjustmentFailure :=
  projects.filterMap (fun project => (bulkValidId project).bind (fun pid =>
    match adjust pid with
    | .error cause => some ⟨pid, cause⟩
    | .ok _ => none))

/-- Report entries collected by a bulk run: one entry, in order, for every
project with a valid ID whose adjustment returns an entry. -/
def bulkEntriesOf (adjust : Nat → Except String (Option ProjectReportEntry))
    (projects : List GitlabProject) : List ProjectReportEntry :=
  projects.filterMap (fun project => (bulkValidId project).bind (fun pid =>
    match adjust pid with
    | .ok (some entry) => some entry
    | _ => none))

/-- File errors collected by a scan: one, in order, for every file whose
processing throws. -/
def fileFailuresOf (processFile : String → Except String (List String)) (projectId : Nat) :
    List String → List DependencyFileProcessingError
  | [] => []
  | file :: rest =>
    match processFile file with
    | .ok _ => fileFailuresOf processFile projectId rest
    | .error cause => ⟨projectId, file, cause⟩ :: fileFailuresOf processFile projectId rest

/-- Concatenation of the dependencies of the files that process
successfully, in file order. -/
def fileDepsOf (processFile : String → Except String (List String)) :
    List String → List String
  | [] => []
  | file :: rest =>
    (match processFile file with | .ok dependencies => dependencies | .error _ => []) ++
      fileDepsOf processFile rest

theorem jsJoin_newline (l : List String) (h : l ≠ []) :
    jsJoin "\n" l ++ "\n" = concatAll (l.map (fun x => x ++ "\n")) := by
  induction l with
  | nil => cases h rfl
  | cons x rest ih =>
    cases rest with
    | nil => simp [jsJoin, concatAll]
    | cons y rest2 =>
      have h2 := ih (by simp)
      simp only [jsJoin, List.map_cons, concatAll] at h2 ⊢
      rw [String.append_assoc, h2]

theorem filter_deps_eq (entries : List ProjectReportEntry) :
    entries.filter (fun e => e.dependencies.length > 0) =
      entries.filter (fun e => e.dependencies ≠ []) :=
  List.filter_congr (fun e _ => decide_eq_decide.mpr (by simp [List.length_pos]))

theorem yaml_block_join (kept : List ProjectReportEntry)
    (hne : ∀ e ∈ kept, e.dependencies ≠ []) (hk : kept ≠ []) :
    jsJoin "\n" (kept.map (fun entry =>
        serializeValue entry.projectName ++ ":\n" ++
          jsJoin "\n" (entry.dependencies.map
            (fun dependency => "  - " ++ serializeValue dependency)))) ++ "\n" =
      concatAll (kept.map (fun entry =>
        serializeValue entry.projectName ++ ":\n" ++
          concatAll (entry.dependencies.map
            (fun dependency => "  - " ++ serializeValue dependency ++ "\n")))) := by
  rw [jsJoin_newline _ (by simpa using hk), List.map_map]
  apply congrArg concatAll
  apply List.map_congr_left
  intro e he
  simp only [Function.comp]
  rw [String.append_assoc]
  congr 1
  rw [jsJoin_newline _ (by simpa using hne e he), List.map_map]
  rfl

theorem buildYamlReport_eq_spec (entries : List ProjectReportEntry) :
    buildYamlReport entries = buildYamlReportSpec entries := by
  unfold buildYamlReport buildYamlReportSpec
  simp only [filter_deps_eq]
  have hne : ∀ e ∈ entries.filter (fun e => e.dependencies ≠ []), e.dependencies ≠ [] :=
    fun e he => by simpa using List.of_mem_filter he
  generalize hk : entries.filter (fun e => e.dependencies ≠ []) = kept
  rw [hk] at hne
  cases kept with
  | nil => simp
  | cons e0 krest =>
    simp only [List.length_cons, Nat.succ_ne_zero, if_false]
    have := yaml_block_join (e0 :: krest) hne (by simp)
    simpa using this

theorem jsEndsWith_append (pre t : String) : jsEndsWith (pre ++ t) t = true := by
  have hsuf : t.toList <:+ (pre ++ t).toList := by
    show t.data <:+ (pre ++ t).data
    rw [String.data_append]
    exact List.suffix_append pre.data t.data
  simp [jsEndsWith, hsuf]

theorem processDependencies_foldl_writes (env : GitlabEnv) (sourceProjectId : Nat)
    (dependencies : List String) (st : DepRunState)
    (h : ∀ dep ∈ dependencies, ∃ depId, env.getProjectId dep = .ok depId ∧
        env.isProjectWhitelisted sourceProjectId depId = .ok true) :
    (dependencies.foldl (processOneDependency env sourceProjectId) st).writes = st.writes := by
  induction dependencies generalizing st with
  | nil => rfl
  | cons dep rest ih =>
    obtain ⟨depId, hid, hwl⟩ := h dep (List.mem_cons_self dep rest)
    have hstep : processOneDependency env sourceProjectId st dep = st := by
      simp [processOneDependency, hid, hwl]
    rw [List.foldl_cons, hstep]
    exact ih st (fun d hd => h d (List.mem_cons_of_mem dep hd))

theorem processDependencies_fst (env : GitlabEnv) (dependencies : List String)
    (sourceProjectId : Nat) :
    (processDependencies env dependencies sourceProjectId).1 =
      dependencies.foldl (processOneDependency env sourceProjectId) ⟨[], []⟩ := by
  unfold processDependencies
  dsimp only
  split <;> rfl

theorem processAllFiles_foldl (processFile : String → Except String (List String))
    (projectId : Nat) (files : List String) : ∀ (st0 : FileLoopState),
    files.foldl (processFileStep processFile projectId) st0 =
      ⟨st0.processed ++ files, st0.allDependencies ++ fileDepsOf processFile files,
       st0.fileErrors ++ fileFailuresOf processFile projectId files⟩ := by
  induction files with
  | nil => intro st0; simp [fileDepsOf, fileFailuresOf]
  | cons file rest ih =>
    intro st0
    rw [List.foldl_cons]
    cases hf : processFile file with
    | ok deps =>
      simp only [processFileStep, hf]
      rw [ih]
      simp [fileDepsOf, fileFailuresOf, hf, List.append_assoc]
    | error cause =>
      simp only [processFileStep, hf]
      rw [ih]
      simp [fileDepsOf, fileFailuresOf, hf, List.append_assoc]

theorem processAllDependencyFiles_fst (processFile : String → Except String (List String))
    (projectId : Nat) (files : List String) :
    (processAllDependencyFiles processFile projectId files).1 =
      files.foldl (processFileStep processFile projectId) ⟨[], [], []⟩ := by
  unfold processAllDependencyFiles
  dsimp only
  split <;> rfl

theorem adjustAll_foldl (adjust : Nat → Except String (Option ProjectReportEntry))
    (options : AdjustAllOptions) (projects : List GitlabProject) :
    ∀ (st0 : BulkState) (f0 : List ProjectAdjustmentFailure),
    projects.foldl (adjustAllProjectsStep adjust options) (st0, f0) =
      (⟨st0.attempted ++ projects.filterMap bulkValidId,
        st0.collectedEntries ++ bulkEntriesOf adjust projects,
        st0.reporterAppends ++
          (if options.dryRun && options.hasReporter then bulkEntriesOf adjust projects else [])⟩,
       f0 ++ bulkFailuresOf adjust projects) := by
  induction projects with
  | nil =>
    intro st0 f0
    simp [bulkEntriesOf, bulkFailuresOf]
  | cons project rest ih =>
    intro st0 f0
    rw [List.foldl_cons]
    cases hv : bulkValidId project with
    | none =>
      simp only [adjustAllProjectsStep, hv]
      rw [ih]
      simp [bulkEntriesOf, bulkFailuresOf, hv]
    | some pid =>
      cases ha : adjust pid with
      | error cause =>
        simp only [adjustAllProjectsStep, hv, ha]
        rw [ih]
        simp [bulkEntriesOf, bulkFailuresOf, hv, ha, List.append_assoc]
      | ok oentry =>
        cases oentry with
        | none =>
          simp only [adjustAllProjectsStep, hv, ha]
          rw [ih]
          simp [bulkEntriesOf, bulkFailuresOf, hv, ha, List.append_assoc]
        | some entry =>
          by_cases hdr : (options.dryRun && options.hasReporter) = true
          · simp only [adjustAllProjectsStep, hv, ha, hdr, if_true]
            rw [ih]
            simp [bulkEntriesOf, bulkFailuresOf, hv, ha, hdr, List.append_assoc]
          · simp only [adjustAllProjectsStep, hv, ha, hdr, if_false, Bool.false_eq_true]
            rw [ih]
            simp [bulkEntriesOf, bulkFailuresOf, hv, ha, hdr, List.append_assoc]

theorem assocFind_append_self {α : Type} (m : List (String × α)) (key : String) (v : α)
    (h : assocFind m key = none) : assocFind (m ++ [(key, v)]) key = some v := by
  induction m with
  | nil => simp [assocFind]
  | cons kv rest ih =>
    obtain ⟨k, w⟩ := kv
    by_cases hk : k = key
    · simp [assocFind, hk] at h
    · simp only [assocFind, List.cons_append, hk, if_false] at h ⊢
      exact ih h

theorem assocFind_append_left {α : Type} (m l : List (String × α)) (q : String) (v : α)
    (h : assocFind m q = some v) : assocFind (m ++ l) q = some v := by
  induction m with
  | nil => simp [assocFind] at h
  | cons kv rest ih =>
    obtain ⟨k, w⟩ := kv
    by_cases hk : k = q
    · simp only [assocFind, hk, if_true] at h
      simp [assocFind, hk, h]
    · simp only [assocFind, List.cons_append, hk, if_false] at h ⊢
      exact ih h

theorem assocFind_append_other {α : Type} (m : List (String × α)) (key q : String) (v : α)
    (h : q ≠ key) : assocFind (m ++ [(key, v)]) q = assocFind m q := by
  induction m with
  | nil =>
    have hne : ¬ key = q := fun hh => h hh.symm
    simp [assocFind, hne]
  | cons kv rest ih =>
    obtain ⟨k, w⟩ := kv
    by_cases hk : k = q
    · simp [assocFind, hk]
    · simp only [assocFind, List.cons_append, hk, if_false]
      exact ih

theorem cachedWhitelistCheck_traces (env : GitlabEnv) (st : CachedRunState)
    (sourceProjectId dependencyProjectId : Nat) :
    (cachedWhitelistCheck env st sourceProjectId dependencyProjectId).2.lookups = st.lookups
    ∧ (cachedWhitelistCheck env st sourceProjectId dependencyProjectId).2.idCache = st.idCache := by
  unfold cachedWhitelistCheck
  cases hp : pairFind st.pairCache (sourceProjectId, dependencyProjectId) with
  | some cached => exact ⟨rfl, rfl⟩
  | none =>
    cases hw : env.isProjectWhitelisted sourceProjectId dependencyProjectId with
    | ok answer => exact ⟨rfl, rfl⟩
    | error cause => exact ⟨rfl, rfl⟩

theorem cachedProcessOne_traces (env : GitlabEnv) (sourceProjectId : Nat)
    (st : CachedRunState) (dependency : String) :
    (cachedProcessOne env sourceProjectId st dependency).lookups =
      (cachedResolveProjectId env st dependency).2.lookups
    ∧ (cachedProcessOne env sourceProjectId st dependency).idCache =
      (cachedResolveProjectId env st dependency).2.idCache := by
  rcases hres : cachedResolveProjectId env st dependency with ⟨r, st1⟩
  cases r with
  | error cause => simp [cachedProcessOne, hres]
  | ok depId =>
    rcases hwl : cachedWhitelistCheck env st1 sourceProjectId depId with ⟨w, st2⟩
    have htr := cachedWhitelistCheck_traces env st1 sourceProjectId depId
    rw [hwl] at htr
    cases w with
    | error cause =>
      simp only [cachedProcessOne, hres, hwl]
      exact htr
    | ok answer =>
      cases answer with
      | true =>
        simp only [cachedProcessOne, hres, hwl]
        exact htr
      | false =>
        cases hal : env.allowCiJobTokenAccess depId sourceProjectId with
        | ok u =>
          simp only [cachedProcessOne, hres, hwl, hal]
          exact htr
        | error cause =>
          simp only [cachedProcessOne, hres, hwl, hal]
          exact htr

theorem cachedResolve_inv (env : GitlabEnv) (st : CachedRunState) (dep : String)
    (h : lookupInv st) : lookupInv (cachedResolveProjectId env st dep).2 := by
  intro q
  unfold cachedResolveProjectId
  cases hm : assocFind st.idCache dep with
  | some cached => exact h q
  | none =>
    by_cases hq : q = dep
    · subst hq
      have hfind := assocFind_append_self st.idCache q (env.getProjectId q) hm
      simp [List.count_append, hfind, h q, hm]
    · have hfind := assocFind_append_other st.idCache dep q (env.getProjectId dep) hq
      simp [List.count_append, hfind, h q, List.count_cons, hq]

theorem cachedResolve_present (env : GitlabEnv) (st : CachedRunState) (dep : String) :
    (assocFind (cachedResolveProjectId env st dep).2.idCache dep).isSome = true := by
  unfold cachedResolveProjectId
  cases hm : assocFind st.idCache dep with
  | some cached => simp [hm]
  | none => simp [assocFind_append_self st.idCache dep (env.getProjectId dep) hm]

theorem lookupInv_traces (a b : CachedRunState) (hl : a.lookups = b.lookups)
    (hc : a.idCache = b.idCache) (h : lookupInv b) : lookupInv a := by
  intro q
  rw [hl, hc]
  exact h q

theorem cachedProcessOne_idCache_extends (env : GitlabEnv) (sourceProjectId : Nat)
    (st : CachedRunState) (dep : String) :
    ∃ tail, (cachedProcessOne env sourceProjectId st dep).idCache = st.idCache ++ tail := by
  rw [(cachedProcessOne_traces env sourceProjectId st dep).2]
  unfold cachedResolveProjectId
  cases hm : assocFind st.idCache dep with
  | some cached => exact ⟨[], by simp⟩
  | none => exact ⟨[(dep, env.getProjectId dep)], rfl⟩

theorem cachedFold_idCache_extends (env : GitlabEnv) (sourceProjectId : Nat) :
    ∀ (deps : List String) (st : CachedRunState),
    ∃ tail, (deps.foldl (cachedProcessOne env sourceProjectId) st).idCache =
      st.idCache ++ tail := by
  intro deps
  induction deps with
  | nil => intro st; exact ⟨[], by simp⟩
  | cons d rest ih =>
    intro st
    rw [List.foldl_cons]
    obtain ⟨t1, h1⟩ := cachedProcessOne_idCache_extends env sourceProjectId st d
    obtain ⟨t2, h2⟩ := ih (cachedProcessOne env sourceProjectId st d)
    exact ⟨t1 ++ t2, by rw [h2, h1, List.append_assoc]⟩

theorem cachedFold_inv_mem (env : GitlabEnv) (sourceProjectId : Nat) :
    ∀ (deps : List String) (st : CachedRunState), lookupInv st →
    lookupInv (deps.foldl (cachedProcessOne env sourceProjectId) st)
    ∧ ∀ p ∈ deps,
        (assocFind (deps.foldl (cachedProcessOne env sourceProjectId) st).idCache p).isSome = true := by
  intro deps
  induction deps with
  | nil => intro st h; exact ⟨h, by simp⟩
  | cons d rest ih =>
    intro st h
    rw [List.foldl_cons]
    have htr := cachedProcessOne_traces env sourceProjectId st d
    have hstep : lookupInv (cachedProcessOne env sourceProjectId st d) :=
      lookupInv_traces _ _ htr.1 htr.2 (cachedResolve_inv env st d h)
    obtain ⟨hinv, hmem⟩ := ih (cachedProcessOne env sourceProjectId st d) hstep
    refine ⟨hinv, ?_⟩
    intro p hp
    rcases List.mem_cons.mp hp with hpd | hpr
    · subst hpd
      have hpres : (assocFind (cachedProcessOne env sourceProjectId st p).idCache p).isSome = true := by
        rw [(cachedProcessOne_traces env sourceProjectId st p).2]
        exact cachedResolve_present env st p
      obtain ⟨v, hv⟩ := Option.isSome_iff_exists.mp hpres
      obtain ⟨tail, htail⟩ :=
        cachedFold_idCache_extends env sourceProjectId rest (cachedProcessOne env sourceProjectId st p)
      rw [htail]
      simp [assocFind_append_left _ _ _ _ hv]
    · exact hmem p hpr

/-! ## Claim theorems -/

/-- Claim C8: buildYamlReport equals the reference definition (empty
dependency lists dropped, empty result serialized as the empty YAML
mapping, one double-quoted name line and one dash line per double-quoted
dependency, newline-terminated), and takes the required values on the
concrete inputs of the claim. -/
theorem claim_C8_report_serialization :
    (∀ entries, buildYamlReport entries = buildYamlReportSpec entries)
    ∧ buildYamlReport [⟨"g/a", 1, ["g/b"]⟩, ⟨"g/c", 2, []⟩] = "\"g/a\":\n  - \"g/b\"\n"
    ∧ buildYamlReport [] = "\x7b\x7d\n"
    ∧ buildYamlReport [⟨"g/c", 2, []⟩] = "\x7b\x7d\n" :=
  ⟨buildYamlReport_eq_spec, by decide, by decide, by decide⟩

/-- Claim C9, amended: findDependencyFiles keeps exactly the discovered
entries whose selected name or path has one of the known manifest names as
a suffix (the endsWith test of the source), hence in particular every entry
whose final path component is a known manifest name; the filter is not a
basename comparison, as the counterexample shows. -/
theorem claim_C9_suffix_filter (isMonorepo : Bool) (files : List TreeItem) :
    (∀ n, n ∈ findDependencyFilesSelect isMonorepo files ↔
        ((∃ f ∈ files, (if isMonorepo then f.path else f.name) = n) ∧
          targetFiles.any (fun file => jsEndsWith n file) = true))
    ∧ (∀ f ∈ files, ∀ t ∈ targetFiles,
        ((if isMonorepo then f.path else f.name) = t ∨
          ∃ pre, (if isMonorepo then f.path else f.name) = pre ++ "/" ++ t) →
        (if isMonorepo then f.path else f.name) ∈ findDependencyFilesSelect isMonorepo files) := by
  constructor
  · intro n
    constructor
    · intro hn
      have h1 := List.mem_filter.mp hn
      obtain ⟨f, hf, hfe⟩ := List.mem_map.mp h1.1
      exact ⟨⟨f, hf, hfe⟩, h1.2⟩
    · rintro ⟨⟨f, hf, hfe⟩, hq⟩
      exact List.mem_filter.mpr ⟨List.mem_map.mpr ⟨f, hf, hfe⟩, hq⟩
  · intro f hf t ht hcase
    apply List.mem_filter.mpr
    refine ⟨List.mem_map.mpr ⟨f, hf, rfl⟩, ?_⟩
    apply List.any_eq_true.mpr
    refine ⟨t, ht, ?_⟩
    rcases hcase with heq | ⟨pre, heq⟩
    · rw [heq]
      simp only [jsEndsWith, decide_eq_true_eq]
      exact List.suffix_refl _
    · rw [heq]
      exact jsEndsWith_append (pre ++ "/") t

/-- Witness for claim C9: a nested manifest path with basename go.mod is
kept, and so is a file that merely ends with go.mod. -/
theorem claim_C9_suffix_filter_witness :
    "a/go.mod" ∈ findDependencyFilesSelect false [⟨"a/go.mod", "x"⟩]
    ∧ "mygo.mod" ∈ findDependencyFilesSelect false [⟨"mygo.mod", "y"⟩] :=
  ⟨(claim_C9_suffix_filter false [⟨"a/go.mod", "x"⟩]).2 ⟨"a/go.mod", "x"⟩ (by simp)
      "go.mod" (by decide) (Or.inr ⟨"a", by decide⟩),
   ((claim_C9_suffix_filter false [⟨"mygo.mod", "y"⟩]).1 "mygo.mod").mpr
      ⟨⟨⟨"mygo.mod", "y"⟩, by simp, rfl⟩, by decide⟩⟩

/-- Counterexample for claim C9 as stated: an entry named mygo.mod is
returned by the filter although its basename mygo.mod is not one of the
known manifest basenames, so findDependencyFiles does not return exactly
the entries with a known basename. -/
theorem claim_C9_basename_counterexample :
    findDependencyFilesSelect false [⟨"mygo.mod", "z"⟩] = ["mygo.mod"]
    ∧ pathBasename "mygo.mod" ∉ targetFiles := by
  constructor
  · decide
  · decide

/-- Claim C2: when every dependency of the list resolves and is already
whitelisted for the source project, the reconciliation loop issues zero
allow-write calls; re-running reconciliation after all dependencies are
allowlisted therefore writes nothing. -/
theorem claim_C2_idempotent_reconciliation (env : GitlabEnv) (dependencies : List String)
    (sourceProjectId : Nat)
    (h : ∀ dep ∈ dependencies, ∃ depId, env.getProjectId dep = .ok depId ∧
        env.isProjectWhitelisted sourceProjectId depId = .ok true) :
    (processDependencies env dependencies sourceProjectId).1.writes = [] := by
  rw [processDependencies_fst]
  exact processDependencies_foldl_writes env sourceProjectId dependencies ⟨[], []⟩ h

/-- Witness for claim C2 at a concrete dependency list and environment. -/
theorem claim_C2_idempotent_reconciliation_witness :
    (∀ dep ∈ ["g/a", "g/b", "g/a"], ∃ depId,
        envAllWhitelisted.getProjectId dep = .ok depId ∧
        envAllWhitelisted.isProjectWhitelisted 1 depId = .ok true)
    ∧ (processDependencies envAllWhitelisted ["g/a", "g/b", "g/a"] 1).1.writes = [] :=
  ⟨fun _ _ => ⟨5, rfl, rfl⟩,
   claim_C2_idempotent_reconciliation envAllWhitelisted ["g/a", "g/b", "g/a"] 1
     (fun _ _ => ⟨5, rfl, rfl⟩)⟩

/-- Claim C1: the bulk loop attempts every listed project with a valid ID
regardless of earlier failures, retains the collected report entries and
reporter appends of the projects that succeeded, and, when at least one
project failed, throws one aggregated error enumerating every failed
project ID with its cause (otherwise it returns the collected entries). -/
theorem claim_C1_bulk_failure_aggregation
    (adjust : Nat → Except String (Option ProjectReportEntry))
    (options : AdjustAllOptions) (projects : List GitlabProject) :
    (adjustAllProjects adjust options projects).1.attempted = projects.filterMap bulkValidId
    ∧ (adjustAllProjects adjust options projects).1.collectedEntries =
        bulkEntriesOf adjust projects
    ∧ (adjustAllProjects adjust options projects).1.reporterAppends =
        (if options.dryRun && options.hasReporter then bulkEntriesOf adjust projects else [])
    ∧ (adjustAllProjects adjust options projects).2 =
        (if bulkFailuresOf adjust projects = []
         then .ok (bulkEntriesOf adjust projects)
         else .error (bulkFailuresOf adjust projects)) := by
  unfold adjustAllProjects
  rw [adjustAll_foldl]
  dsimp only
  refine ⟨by split <;> rfl, by split <;> rfl, by split <;> rfl, ?_⟩
  by_cases hfail : bulkFailuresOf adjust projects = []
  · simp [hfail]
  · have hlen : 0 < (bulkFailuresOf adjust projects).length := List.length_pos.mpr hfail
    simp [hfail, hlen]

/-- Claim C3, amended: processAllDependencyFiles hands every file to the
per-file processing (sibling files keep being processed after a failure)
and collects the dependencies of the successful files, but when at least
one file failed it throws one aggregated error naming every failed file
and cause instead of returning the collected dependencies; they are
returned only when no file failed. -/
theorem claim_C3_file_failure_aggregation
    (processFile : String → Except String (List String)) (projectId : Nat)
    (files : List String) :
    (processAllDependencyFiles processFile projectId files).1.processed = files
    ∧ (processAllDependencyFiles processFile projectId files).1.allDependencies =
        fileDepsOf processFile files
    ∧ (processAllDependencyFiles processFile projectId files).2 =
        (if fileFailuresOf processFile projectId files = []
         then .ok (fileDepsOf processFile files)
         else .error ⟨projectId,
           (fileFailuresOf processFile projectId files).map (fun err => ⟨err.file, err.cause⟩)⟩) := by
  unfold processAllDependencyFiles
  rw [processAllFiles_foldl]
  dsimp only
  refine ⟨by split <;> rfl, by split <;> rfl, ?_⟩
  by_cases hfail : fileFailuresOf processFile projectId files = []
  · simp [hfail]
  · have hlen : 0 < (fileFailuresOf processFile projectId files).length :=
      List.length_pos.mpr hfail
    simp [hfail, hlen]

/-- Counterexample for claim C3 as stated: with one succeeding and one
failing file the scan result is the aggregated error; the dependencies
collected from the succeeding file are not returned, since the throw
replaces the return value. -/
theorem claim_C3_no_partial_return_counterexample :
    (processAllDependencyFiles scanEnvPartial 7 ["a", "b"]).1.allDependencies = ["g/b"]
    ∧ (processAllDependencyFiles scanEnvPartial 7 ["a", "b"]).2 =
        Except.error ⟨7, [⟨"b", "boom"⟩]⟩ :=
  ⟨rfl, rfl⟩

/-- Claim C5, amended: the aggregated scan result is the plain
concatenation of the per-file extractions, with no deduplication across
files or inside the module-file extractor; only the JS-lockfile extractor
deduplicates, through its insertion-ordered set, so its result list never
contains duplicates. -/
theorem claim_C5_dedup_scope :
    (∀ (processFile : String → Except String (List String)) (projectId : Nat)
        (files : List String),
        (processAllDependencyFiles processFile projectId files).1.allDependencies =
          fileDepsOf processFile files)
    ∧ (∀ (env : ProjectLookupEnv) (gitlabUrl : String) (dependencies : NpmDeps),
        (npmWalk env gitlabUrl [dependencies] ⟨[], [], []⟩).found.Nodup) := by
  constructor
  · intro processFile projectId files
    rw [processAllDependencyFiles_fst, processAllFiles_foldl]
    rfl
  · intro env gitlabUrl dependencies
    exact npmWalk_nodup env gitlabUrl [dependencies] ⟨[], [], []⟩ List.nodup_nil

/-- Counterexample for claim C5 as stated: the module-file extractor emits
the same dependency twice and the scan returns the concatenation, so the
resulting dependency list contains a duplicate entry. -/
theorem claim_C5_duplicate_counterexample :
    goModExtract goModDupContent "https://gl.example" = ["g/a", "g/a"]
    ∧ (processAllDependencyFiles scanEnvGoModDup 1 ["go.mod"]).2 = .ok ["g/a", "g/a"]
    ∧ ¬ (["g/a", "g/a"] : List String).Nodup :=
  ⟨by decide, rfl, by decide⟩

/-- Claim C4, amended: on malformed input the composer.json extractor and
the composer.lock extractor catch the JSON parse failure, report it and
return an empty dependency list (the module-file extractor performs no
parsing at all and is total by construction), but the JS-lockfile
extractor does not catch it: it propagates the parse exception, which the
per-file loop upstream then wraps into a file-level failure. -/
theorem claim_C4_malformed_input_handling :
    (∀ gitlabUrl, composerExtract none gitlabUrl = [])
    ∧ (∀ platform lookup gitlabUrl st,
        (composerLockExtract platform lookup none gitlabUrl st).1 = [])
    ∧ (∀ env gitlabUrl,
        npmExtractDependencies env gitlabUrl none = .error "SyntaxError: JSON.parse") :=
  ⟨fun _ => rfl, fun _ _ _ _ => rfl, fun _ _ => rfl⟩

/-- Counterexample for claim C4 as stated: on malformed (unparseable)
content the JS-lockfile extractor does not log and return an empty list,
it throws the JSON parse exception. -/
theorem claim_C4_npm_throws_counterexample :
    npmExtractDependencies lookupEnvNpm "https://host" none =
      .error "SyntaxError: JSON.parse" := rfl

/-- Claim C6, amended: the composer lockfile resolver memoizes project
lookups: a resolution of an ID missing from the cache issues exactly one
getProject call and stores the outcome (null on failure, so a not-found is
also cached), and a further resolution of the same ID returns the cached
value and the unchanged state, issuing no call.  The JS-lockfile extractor
has no such cache, as the counterexample shows. -/
theorem claim_C6_resolver_memoization (env : ProjectLookupEnv) (st : LockState)
    (id : String) (hmiss : assocFind st.projectCache id = none) :
    ((lockResolveProjectId env st id).2.lookups = st.lookups ++ [id])
    ∧ (lockResolveProjectId env (lockResolveProjectId env st id).2 id =
        ((lockResolveProjectId env st id).1, (lockResolveProjectId env st id).2))
    ∧ (∀ cause, env.getProject id = .error cause →
        (lockResolveProjectId env st id).1 = none) := by
  cases henv : env.getProject id with
  | ok project =>
    have hcache :=
      assocFind_append_self st.projectCache id project.pathWithNamespace hmiss
    refine ⟨?_, ?_, ?_⟩
    · simp [lockResolveProjectId, hmiss, henv]
    · simp [lockResolveProjectId, hmiss, henv, hcache]
    · intro cause hc
      exact Except.noConfusion hc
  | error cause =>
    have hcache := assocFind_append_self st.projectCache id (none : Option String) hmiss
    refine ⟨?_, ?_, ?_⟩
    · simp [lockResolveProjectId, hmiss, henv]
    · simp [lockResolveProjectId, hmiss, henv, hcache]
    · intro cause2 hc
      simp [lockResolveProjectId, hmiss, henv]

/-- Witness for claim C6: resolving 123 twice from an empty cache issues
one lookup and the second resolution returns the cached outcome with the
state unchanged. -/
theorem claim_C6_resolver_memoization_witness :
    (assocFind (LockState.mk [] [] [] []).projectCache "123" = none)
    ∧ ((lockResolveProjectId lookupEnvNpm ⟨[], [], [], []⟩ "123").2.lookups =
        ([] : List String) ++ ["123"])
    ∧ (lockResolveProjectId lookupEnvNpm
          (lockResolveProjectId lookupEnvNpm ⟨[], [], [], []⟩ "123").2 "123" =
        ((lockResolveProjectId lookupEnvNpm ⟨[], [], [], []⟩ "123").1,
         (lockResolveProjectId lookupEnvNpm ⟨[], [], [], []⟩ "123").2)) :=
  ⟨rfl,
   (claim_C6_resolver_memoization lookupEnvNpm ⟨[], [], [], []⟩ "123" rfl).1,
   (claim_C6_resolver_memoization lookupEnvNpm ⟨[], [], [], []⟩ "123" rfl).2.1⟩

/-- Counterexample for claim C6 as stated: extracting a lockfile in which
the same numeric project ID 123 occurs in two resolved URLs issues two
getProject lookups, because NpmProcessor.addProjectToSet performs an
uncached lookup on every occurrence; only the resulting path is
deduplicated. -/
theorem claim_C6_npm_uncached_counterexample :
    npmExtractDependencies lookupEnvNpm "https://host" (some npmLockDup) =
      .ok ⟨["g/p"], ["123", "123"], []⟩ := by
  have hx : npmExtractProjectId
      "https://host/api/v4/projects/123/packages/npm/x/-/x-1.0.0.tgz" "https://host" =
      some "123" := by decide
  have hy : npmExtractProjectId
      "https://host/api/v4/projects/123/packages/npm/y/-/y-1.0.0.tgz" "https://host" =
      some "123" := by decide
  have hex : ("https://host/api/v4/projects/123/packages/npm/x/-/x-1.0.0.tgz" : String).isEmpty
      = false := by decide
  have hey : ("https://host/api/v4/projects/123/packages/npm/y/-/y-1.0.0.tgz" : String).isEmpty
      = false := by decide
  simp [npmExtractDependencies, npmWalk, npmProcessEntries, npmTruthy, npmLockDup,
        npmAddProjectToSet, lookupEnvNpm, hx, hy, hex, hey]

/-- Claim C7: in the memoised reconciliation run every dependency path of
the list, however often it repeats, is looked up through getProjectId
exactly once. -/
theorem claim_C7_cached_lookup_once (env : GitlabEnv) (dependencies : List String)
    (sourceProjectId : Nat) (p : String) (hp : p ∈ dependencies) :
    (processDependenciesCached env dependencies sourceProjectId).1.lookups.count p = 1 := by
  have hfst : (processDependenciesCached env dependencies sourceProjectId).1 =
      dependencies.foldl (cachedProcessOne env sourceProjectId) ⟨[], [], [], [], []⟩ := by
    unfold processDependenciesCached
    dsimp only
    split <;> rfl
  rw [hfst]
  have h0 : lookupInv ⟨[], [], [], [], []⟩ := by
    intro q
    simp [assocFind]
  obtain ⟨hinv, hmem⟩ := cachedFold_inv_mem env sourceProjectId dependencies _ h0
  rw [hinv p, hmem p hp]
  simp

/-- Witness for claim C7: a list repeating the same path three times costs
one lookup for it. -/
theorem claim_C7_cached_lookup_once_witness :
    ("g/a" ∈ ["g/a", "g/a", "g/a"])
    ∧ (processDependenciesCached envAllWhitelisted ["g/a", "g/a", "g/a"] 1).1.lookups.count "g/a"
        = 1 :=
  ⟨by simp,
   claim_C7_cached_lookup_once envAllWhitelisted ["g/a", "g/a", "g/a"] 1 "g/a" (by simp)⟩

/-- Claim C10: the child map of a node without a resolved URL is never
pushed onto the traversal stack, so pruning every such subtree leaves the
extraction outcome (dependency list, lookup trace and diagnostics)
unchanged; in particular a lockfile whose only GitLab package reference
sits below an unresolved node extracts nothing. -/
theorem claim_C10_unresolved_subtree_skipped :
    (∀ (env : ProjectLookupEnv) (gitlabUrl : String) (root : NpmDeps),
        npmExtractDependencies env gitlabUrl (some (npmPrune root)) =
          npmExtractDependencies env gitlabUrl (some root))
    ∧ npmExtractDependencies lookupEnvNpm "https://host" (some npmLockHidden) =
        .ok ⟨[], [], []⟩ := by
  constructor
  · intro env gitlabUrl root
    have hwalk := npmWalk_prune env gitlabUrl [root] ⟨[], [], []⟩
    simp only [List.map_cons, List.map_nil] at hwalk
    have h1 : npmExtractDependencies env gitlabUrl (some (npmPrune root)) =
        .ok (npmWalk env gitlabUrl [npmPrune root] ⟨[], [], []⟩) := rfl
    have h2 : npmExtractDependencies env gitlabUrl (some root) =
        .ok (npmWalk env gitlabUrl [root] ⟨[], [], []⟩) := rfl
    rw [h1, h2, hwalk]
  · simp [npmExtractDependencies, npmWalk, npmProcessEntries, npmTruthy, npmLockHidden]

end Gtsa
